import Mathlib

/-!
Shallow embedding of the `metaheuristics-nature-rs` core
(`src/utility.rs`, `src/de.rs`, `src/tlbo.rs`).

Floating-point (`f64`) values are modelled as rationals `ℚ`; the shared
random source (`rand!` / `maybe!` macros) is modelled as explicit oracle
streams passed to each operation, with range constraints of the generator
(`rand!(a, b)` draws a value in `[a, b)`) stated as hypotheses where a
claim needs them.  Vectors and the population pool are modelled as total
functions `ℕ → ℚ` and `ℕ → ℕ → ℚ`; only the first `dim` components
(first `pop_num` rows) are meaningful.  Fallible code paths (array
indexing out of bounds, loops with no terminating execution) are modelled
with `Option`, `none` standing for a panic or divergence.  Wall-clock time
(`Instant::now`) is modelled as a boolean oracle in the `MaxTime` task.
`f64::INFINITY` (the initial `best_f` of `AlgorithmBase::new`) has no
rational counterpart; all run-level statements therefore quantify over an
arbitrary initial `best_f`, which subsumes the infinite starting value.
-/

/-- The mutable numeric state of a run: mirror of `AlgorithmBase`
(fields `pool`, `fitness`, `best`, `best_f`) together with the
scratch trial vector `tmp` kept by both `DE` and `TLBO`. -/
structure AState where
  pool : ℕ → ℕ → ℚ
  fitness : ℕ → ℚ
  best : ℕ → ℚ
  best_f : ℚ
  tmp : ℕ → ℚ

/-- `Algorithm::check` (utility.rs:231): clamp a scalar into `[lb s, ub s]`. -/
def check (lb ub : ℕ → ℚ) (s : ℕ) (v : ℚ) : ℚ :=
  if v > ub s then ub s else if v < lb s then lb s else v

/-- `Algorithm::set_best` (utility.rs:202): adopt individual `i` as global best. -/
def set_best (st : AState) (i : ℕ) : AState :=
  { st with best_f := st.fitness i, best := st.pool i }

/-- The index scan of `Algorithm::find_best` (utility.rs:208):
`best = 0; for i in 0..pop_num { if fitness[i] < fitness[best] { best = i } }`. -/
def findBestIdx (pop : ℕ) (fitness : ℕ → ℚ) : ℕ :=
  (List.range pop).foldl (fun best i => if fitness i < fitness best then i else best) 0

/-- `Algorithm::find_best` (utility.rs:208): scan all individuals and adopt
the winner only if strictly better than the incumbent `best_f`. -/
def find_best (pop : ℕ) (st : AState) : AState :=
  if st.fitness (findBestIdx pop st.fitness) < st.best_f then
    set_best st (findBestIdx pop st.fitness)
  else st

/-- One iteration of `Algorithm::init_pop` (utility.rs:221): fill row `i`
with the sampled values `rnd i s` (the draws of `rand!(lb(s), ub(s))`),
then evaluate the row's fitness.  The inner `for s in 0..dim` loop is
collapsed into a single row-valued update, which writes exactly the same
components. -/
def initRow (dim : ℕ) (rnd : ℕ → ℕ → ℚ) (fit_fn : (ℕ → ℚ) → ℚ)
    (st : AState) (i : ℕ) : AState :=
  let st1 := { st with
    pool := Function.update st.pool i (fun s => if s < dim then rnd i s else st.pool i s) }
  { st1 with fitness := Function.update st1.fitness i (fit_fn (st1.pool i)) }

/-- `Algorithm::init_pop` (utility.rs:221): the `for i in 0..pop_num` loop. -/
def init_pop (pop dim : ℕ) (rnd : ℕ → ℕ → ℚ) (fit_fn : (ℕ → ℚ) → ℚ)
    (st : AState) : AState :=
  (List.range pop).foldl (initRow dim rnd fit_fn) st

/-- Bounds invariant: every meaningful component of every meaningful row of
the pool lies within `[lb s, ub s]`. -/
def poolInBounds (pop dim : ℕ) (lb ub : ℕ → ℚ) (pool : ℕ → ℕ → ℚ) : Prop :=
  ∀ i, i < pop → ∀ s, s < dim → lb s ≤ pool i s ∧ pool i s ≤ ub s

/-! ## TLBO (`src/tlbo.rs`) -/

/-- Random draws consumed by one individual's TLBO generation step:
`u` is the teacher-phase `rand!()` draw defining the teaching factor,
`rt s` the teacher-phase `rand!(1., dim)` draw for dimension `s`,
`jdraw` the learner-phase `rand!(0, pop_num - 1)` draw,
`rl s` the learner-phase `rand!(1., dim)` draw for dimension `s`. -/
structure TLBORand where
  u : ℚ
  rt : ℕ → ℚ
  jdraw : ℕ
  rl : ℕ → ℚ

/-- `f64::round` for the teaching-factor computation: round half away from
zero agrees with `⌊x + 1/2⌋` on the nonnegative inputs `u + 1 ∈ [1, 2)`. -/
def roundQ (x : ℚ) : ℤ := ⌊x + 1/2⌋

/-- The `mean` accumulated by `TLBO::teaching` (tlbo.rs:34):
the population sum of component `s` divided by `dim`
(the source divides by `self.base.dim`, not by `pop_num`). -/
def poolMean (pop dim : ℕ) (pool : ℕ → ℕ → ℚ) (s : ℕ) : ℚ :=
  ((List.range pop).map (fun j => pool j s)).sum / (dim : ℚ)

/-- Modelled from the spec: the per-dimension arithmetic mean across the
entire current population ("the sum of pool[j][s] over all j in 0..pop_num
divided by pop_num"), stated for comparison with `poolMean`. -/
def populationMeanSpec (pop : ℕ) (pool : ℕ → ℕ → ℚ) (s : ℕ) : ℚ :=
  ((List.range pop).map (fun j => pool j s)).sum / (pop : ℚ)

/-- `TLBO::register` (tlbo.rs:21): evaluate the trial vector, greedily
adopt it at index `i`, and push down the global best immediately. -/
def register (fit_fn : (ℕ → ℚ) → ℚ) (st : AState) (i : ℕ) : AState :=
  let f_new := fit_fn st.tmp
  let st1 := if f_new < st.fitness i then
      { st with pool := Function.update st.pool i st.tmp,
                fitness := Function.update st.fitness i f_new }
    else st
  if f_new < st1.best_f then set_best st1 i else st1

/-- `TLBO::teaching` (tlbo.rs:31): teacher phase for individual `i`. -/
def teaching (pop dim : ℕ) (lb ub : ℕ → ℚ) (fit_fn : (ℕ → ℚ) → ℚ)
    (rd : TLBORand) (st : AState) (i : ℕ) : AState :=
  let tf : ℚ := (roundQ (rd.u + 1) : ℤ)
  register fit_fn
    { st with tmp := fun s =>
        if s < dim then
          (check lb ub s
            (st.pool i s + rd.rt s * (st.best s - tf * poolMean pop dim st.pool s)))
        else st.tmp s } i

/-- The `diff` of `TLBO::learning` (tlbo.rs:50): directed difference chosen
by the fitness comparison between `i` and its partner `j`. -/
def learnDiff (st : AState) (i j s : ℕ) : ℚ :=
  if st.fitness j < st.fitness i then st.pool i s - st.pool j s
  else st.pool j s - st.pool i s

/-- `TLBO::learning` (tlbo.rs:44): learner phase for individual `i`;
the partner index is `jdraw` bumped past `i`. -/
def learning (pop dim : ℕ) (lb ub : ℕ → ℚ) (fit_fn : (ℕ → ℚ) → ℚ)
    (rd : TLBORand) (st : AState) (i : ℕ) : AState :=
  let j := if rd.jdraw ≥ i then rd.jdraw + 1 else rd.jdraw
  register fit_fn
    { st with tmp := fun s =>
        if s < dim then
          check lb ub s (st.pool i s + rd.rl s * learnDiff st i j s)
        else st.tmp s } i

/-- One iteration of `TLBO::generation` (tlbo.rs:65): teacher phase then
learner phase for individual `i`.  `rd` bundles the random draws consumed
while processing individual `i`. -/
def tlboIndividual (pop dim : ℕ) (lb ub : ℕ → ℚ) (fit_fn : (ℕ → ℚ) → ℚ)
    (rd : TLBORand) (st : AState) (i : ℕ) : AState :=
  learning pop dim lb ub fit_fn rd (teaching pop dim lb ub fit_fn rd st i) i

/-- `TLBO::generation` (tlbo.rs:65): the `for i in 0..pop_num` loop. -/
def tlboGeneration (pop dim : ℕ) (lb ub : ℕ → ℚ) (fit_fn : (ℕ → ℚ) → ℚ)
    (rand : ℕ → TLBORand) (st : AState) : AState :=
  (List.range pop).foldl (fun st i => tlboIndividual pop dim lb ub fit_fn (rand i) st i) st

/-! ## Differential Evolution (`src/de.rs`) -/

/-- The ten DE strategy variants (`Strategy` in de.rs). -/
inductive DEStrategy where
  | S1 | S2 | S3 | S4 | S5 | S6 | S7 | S8 | S9 | S10
deriving DecidableEq

/-- The auxiliary-index count `num` chosen by `DE::new` (de.rs:55):
the length of the sampled index array `v`. -/
def strategyNum : DEStrategy → ℕ
  | .S1 | .S3 | .S6 | .S8 => 2
  | .S2 | .S7 => 3
  | .S4 | .S9 => 4
  | .S5 | .S10 => 5

/-- Random draws consumed by one individual's DE recombination:
`idx` is the stream of `rand!(0, pop_num)` draws of `DE::vector`,
`start` the `rand!(0, dim)` draw of `DE::recombination`, and
`coin` the stream of `maybe!(cr)` outcomes of the crossover. -/
structure DERand where
  idx : ℕ → ℕ
  start : ℕ
  coin : ℕ → Bool

/-- The `while` redraw loop of `DE::vector` (de.rs:87): redraw `cur` from
the stream (position `k`) until it differs from `i` and from every earlier
pick in `prev`; returns the accepted value and the next unused stream
position, or `none` if the loop does not exit within `fuel` iterations. -/
def redraw (i : ℕ) (prev : List ℕ) (idx : ℕ → ℕ) : ℕ → ℕ → ℕ → Option (ℕ × ℕ)
  | 0, k, cur => if cur = i ∨ cur ∈ prev then none else some (cur, k)
  | fuel + 1, k, cur =>
    if cur = i ∨ cur ∈ prev then redraw i prev idx fuel (k + 1) (idx k)
    else some (cur, k)

/-- The `for j in 0..v.len()` loop of `DE::vector` (de.rs:85): fill the
remaining `slots` entries, each seeded with `i` (hence immediately
redrawn), accumulating the already-chosen prefix in `prev`. -/
def vectorAux (i : ℕ) (idx : ℕ → ℕ) (fuel : ℕ) : ℕ → ℕ → List ℕ → Option (List ℕ)
  | 0, _, prev => some prev
  | slots + 1, k, prev =>
    match redraw i prev idx fuel k i with
    | none => none
    | some (val, k') => vectorAux i idx fuel slots k' (prev ++ [val])

/-- `DE::vector` (de.rs:84): sample `num` auxiliary indices for
individual `i`, all distinct from `i` and from each other. -/
def vectorFn (i num : ℕ) (idx : ℕ → ℕ) (fuel : ℕ) : Option (List ℕ) :=
  vectorAux i idx fuel num 0 []

/-- `DE::f1` (de.rs:92): `best[n] + f * (pool[v[0]][n] - pool[v[1]][n])`.
Indexing into `v` is fallible (`none` models the out-of-bounds panic). -/
def DEf1 (f : ℚ) (pool : ℕ → ℕ → ℚ) (best : ℕ → ℚ) (v : List ℕ)
    (tmp : ℕ → ℚ) (n : ℕ) : Option ℚ :=
  match v.get? 0, v.get? 1 with
  | some a, some b => some (best n + f * (pool a n - pool b n))
  | _, _ => none

/-- `DE::f2` (de.rs:96): `pool[v[0]][n] + f * (pool[v[1]][n] - pool[v[3]][n])`.
Note the source reads `v[3]`, the fourth entry of `v`. -/
def DEf2 (f : ℚ) (pool : ℕ → ℕ → ℚ) (best : ℕ → ℚ) (v : List ℕ)
    (tmp : ℕ → ℚ) (n : ℕ) : Option ℚ :=
  match v.get? 0, v.get? 1, v.get? 3 with
  | some a, some b, some c => some (pool a n + f * (pool b n - pool c n))
  | _, _, _ => none

/-- `DE::f3` (de.rs:100):
`tmp[n] + f * (best[n] - tmp[n] + pool[v[0]][n] - pool[v[1]][n])`. -/
def DEf3 (f : ℚ) (pool : ℕ → ℕ → ℚ) (best : ℕ → ℚ) (v : List ℕ)
    (tmp : ℕ → ℚ) (n : ℕ) : Option ℚ :=
  match v.get? 0, v.get? 1 with
  | some a, some b => some (tmp n + f * (best n - tmp n + pool a n - pool b n))
  | _, _ => none

/-- `DE::f45` (de.rs:112):
`(pool[v[0]][n] + pool[v[1]][n] - pool[v[2]][n] - pool[v[3]][n]) * f`. -/
def DEf45 (f : ℚ) (pool : ℕ → ℕ → ℚ) (v : List ℕ) (n : ℕ) : Option ℚ :=
  match v.get? 0, v.get? 1, v.get? 2, v.get? 3 with
  | some a, some b, some c, some d =>
    some ((pool a n + pool b n - pool c n - pool d n) * f)
  | _, _, _, _ => none

/-- `DE::f4` (de.rs:106): `best[n] + f45(n)`. -/
def DEf4 (f : ℚ) (pool : ℕ → ℕ → ℚ) (best : ℕ → ℚ) (v : List ℕ)
    (tmp : ℕ → ℚ) (n : ℕ) : Option ℚ :=
  (DEf45 f pool v n).map (fun x => best n + x)

/-- `DE::f5` (de.rs:109): `pool[v[4]][n] + f45(n)`. -/
def DEf5 (f : ℚ) (pool : ℕ → ℕ → ℚ) (best : ℕ → ℚ) (v : List ℕ)
    (tmp : ℕ → ℚ) (n : ℕ) : Option ℚ :=
  match v.get? 4, DEf45 f pool v n with
  | some e, some x => some (pool e n + x)
  | _, _ => none

/-- The `formula` function pointer chosen by `DE::new` (de.rs:66). -/
def deFormula : DEStrategy →
    ℚ → (ℕ → ℕ → ℚ) → (ℕ → ℚ) → List ℕ → (ℕ → ℚ) → ℕ → Option ℚ
  | .S1 | .S6 => DEf1
  | .S2 | .S7 => DEf2
  | .S3 | .S8 => DEf3
  | .S4 | .S9 => DEf4
  | .S5 | .S10 => DEf5

/-- Loop body of `DE::s1` (de.rs:118), Pattern A: starting at dimension `n`,
overwrite `tmp[n]` with the formula value, advance (wrapping mod `dim`),
and continue only while `maybe!(cr)` (= `coin c`) holds.  Returns the new
trial vector together with the list of overwritten dimensions, or `none`
if a formula evaluation panics. -/
def s1Aux (coin : ℕ → Bool) (formula : (ℕ → ℚ) → ℕ → Option ℚ) (dim : ℕ) :
    ℕ → ℕ → ℕ → (ℕ → ℚ) → Option ((ℕ → ℚ) × List ℕ)
  | 0, _, _, tmp => some (tmp, [])
  | iters + 1, c, n, tmp =>
    match formula tmp n with
    | none => none
    | some val =>
      let tmp1 := Function.update tmp n val
      if coin c then
        match s1Aux coin formula dim iters (c + 1) ((n + 1) % dim) tmp1 with
        | none => none
        | some (t, w) => some (t, n :: w)
      else some (tmp1, [n])

/-- `DE::s1` (de.rs:118): Pattern A crossover, `for _ in 0..dim` with early
exit. -/
def DEs1 (coin : ℕ → Bool) (formula : (ℕ → ℚ) → ℕ → Option ℚ) (dim : ℕ)
    (tmp : ℕ → ℚ) (n : ℕ) : Option ((ℕ → ℚ) × List ℕ) :=
  s1Aux coin formula dim dim 0 n tmp

/-- Loop body of `DE::s2` (de.rs:127), Pattern B: visit every dimension
once (`lv` counts visits), overwriting when `!maybe!(cr)` fails or this is
the final visit. -/
def s2Aux (coin : ℕ → Bool) (formula : (ℕ → ℚ) → ℕ → Option ℚ) (dim : ℕ) :
    ℕ → ℕ → ℕ → (ℕ → ℚ) → Option ((ℕ → ℚ) × List ℕ)
  | 0, _, _, tmp => some (tmp, [])
  | rem + 1, lv, n, tmp =>
    if !coin lv || lv == dim - 1 then
      match formula tmp n with
      | none => none
      | some val =>
        match s2Aux coin formula dim rem (lv + 1) ((n + 1) % dim)
            (Function.update tmp n val) with
        | none => none
        | some (t, w) => some (t, n :: w)
    else s2Aux coin formula dim rem (lv + 1) ((n + 1) % dim) tmp

/-- `DE::s2` (de.rs:127): Pattern B crossover, `for lv in 0..dim`. -/
def DEs2 (coin : ℕ → Bool) (formula : (ℕ → ℚ) → ℕ → Option ℚ) (dim : ℕ)
    (tmp : ℕ → ℚ) (n : ℕ) : Option ((ℕ → ℚ) × List ℕ) :=
  s2Aux coin formula dim dim 0 n tmp

/-- The `setter` function pointer chosen by `DE::new` (de.rs:73):
S1-S5 use Pattern A, S6-S10 use Pattern B. -/
def deSetter (strat : DEStrategy) :
    (ℕ → Bool) → ((ℕ → ℚ) → ℕ → Option ℚ) → ℕ → (ℕ → ℚ) → ℕ →
    Option ((ℕ → ℚ) × List ℕ) :=
  match strat with
  | .S1 | .S2 | .S3 | .S4 | .S5 => DEs1
  | .S6 | .S7 | .S8 | .S9 | .S10 => DEs2

/-- One iteration of the `for i in 0..pop_num` loop of `DE::generation`
(de.rs:149): sample auxiliary indices, recombine (`tmp` starts as a copy
of row `i`, then the setter runs from the random start dimension), reject
the whole trial if any component breaks a bound (`continue 'a`), otherwise
evaluate the objective once and adopt greedily.  The ghost `Bool` of the
result records whether the objective function was evaluated. -/
def deIndividual (dim : ℕ) (lb ub : ℕ → ℚ) (fit_fn : (ℕ → ℚ) → ℚ)
    (strat : DEStrategy) (f : ℚ) (fuel : ℕ) (rd : DERand) (st : AState)
    (i : ℕ) : Option (AState × Bool) :=
  match vectorFn i (strategyNum strat) rd.idx fuel with
  | none => none
  | some v =>
    match deSetter strat rd.coin (deFormula strat f st.pool st.best v) dim
        (st.pool i) rd.start with
    | none => none
    | some (tmp, _) =>
      if (List.range dim).any (fun s => decide (tmp s > ub s) || decide (tmp s < lb s)) then
        some ({ st with tmp := tmp }, false)
      else
        let tmp_f := fit_fn tmp
        if tmp_f < st.fitness i then
          some ({ st with pool := Function.update st.pool i tmp,
                          fitness := Function.update st.fitness i tmp_f,
                          tmp := tmp }, true)
        else some ({ st with tmp := tmp }, true)

/-- The individual loop of `DE::generation` over the listed indices. -/
def deGenerationAux (dim : ℕ) (lb ub : ℕ → ℚ) (fit_fn : (ℕ → ℚ) → ℚ)
    (strat : DEStrategy) (f : ℚ) (fuel : ℕ) (rand : ℕ → DERand) :
    List ℕ → AState → Option AState
  | [], st => some st
  | i :: rest, st =>
    match deIndividual dim lb ub fit_fn strat f fuel (rand i) st i with
    | none => none
    | some (st', _) => deGenerationAux dim lb ub fit_fn strat f fuel rand rest st'

/-- `DE::generation` (de.rs:148): process all individuals, then adopt the
global best by the end-of-generation `find_best` scan. -/
def deGeneration (pop dim : ℕ) (lb ub : ℕ → ℚ) (fit_fn : (ℕ → ℚ) → ℚ)
    (strat : DEStrategy) (f : ℚ) (fuel : ℕ) (rand : ℕ → DERand)
    (st : AState) : Option AState :=
  (deGenerationAux dim lb ub fit_fn strat f fuel rand (List.range pop) st).map
    (find_best pop)

/-! ## Optimization lifecycle (`Algorithm::run`, utility.rs:255) -/

/-- `Report` (utility.rs:49) without the wall-clock `time` field, which has
no counterpart in the embedding. -/
structure RReport where
  gen : ℕ
  fitness : ℚ
deriving DecidableEq

/-- `Task` (utility.rs:36).  The `MaxTime` deadline test
`(Instant::now() - time_start).as_secs_f32() >= v` is modelled as a boolean
oracle indexed by the generation at which it is consulted. -/
inductive RTask where
  | MaxGen : ℕ → RTask
  | MinFit : ℚ → RTask
  | MaxTime : (ℕ → Bool) → RTask
  | SlowDown : ℚ → RTask

/-- The `loop` of `Algorithm::run` (utility.rs:261): increment the
generation, run one generation step (`step g`, which may panic or diverge:
`none`), append a periodic report, then evaluate the termination policy.
`fuel` bounds the number of iterations; exhausting it models a
non-terminating run (`none`). -/
def runLoop {σ : Type} (step : ℕ → σ → Option σ) (bestF : σ → ℚ)
    (task : RTask) (rpt : ℕ) :
    ℕ → ℕ → σ → ℚ → List RReport → Option (σ × ℕ × List RReport)
  | 0, _, _, _, _ => none
  | fuel + 1, g, st, last_diff, reps =>
    let bf0 := bestF st
    match step (g + 1) st with
    | none => none
    | some st' =>
      let reps' := if (g + 1) % rpt = 0 then reps ++ [⟨g + 1, bestF st'⟩] else reps
      match task with
      | .MaxGen v =>
        if v ≤ g + 1 then some (st', g + 1, reps')
        else runLoop step bestF task rpt fuel (g + 1) st' last_diff reps'
      | .MinFit v =>
        if bestF st' ≤ v then some (st', g + 1, reps')
        else runLoop step bestF task rpt fuel (g + 1) st' last_diff reps'
      | .MaxTime oracle =>
        if oracle (g + 1) then some (st', g + 1, reps')
        else runLoop step bestF task rpt fuel (g + 1) st' last_diff reps'
      | .SlowDown v =>
        if 0 < last_diff ∧ v ≤ (bf0 - bestF st') / last_diff then
          some (st', g + 1, reps')
        else runLoop step bestF task rpt fuel (g + 1) st' (bf0 - bestF st') reps'

/-- `Algorithm::run` (utility.rs:255) after initialization: `st0` is the
state produced by `init` (generation counter 0), an initial report is
captured, the loop runs, and a final report is appended on termination. -/
def runAlg {σ : Type} (step : ℕ → σ → Option σ) (bestF : σ → ℚ)
    (task : RTask) (rpt fuel : ℕ) (st0 : σ) : Option (σ × List RReport) :=
  match runLoop step bestF task rpt fuel 0 st0 0 [⟨0, bestF st0⟩] with
  | none => none
  | some (st, g, reps) => some (st, reps ++ [⟨g, bestF st⟩])

/-- The report sequence of a run; empty if the run panics or diverges. -/
def runAlgReports {σ : Type} (step : ℕ → σ → Option σ) (bestF : σ → ℚ)
    (task : RTask) (rpt fuel : ℕ) (st0 : σ) : List RReport :=
  ((runAlg step bestF task rpt fuel st0).map Prod.snd).getD []

/-- The state reached after `k` generation steps (step `g` receives the
generation counter `g`), `none` if any step panics or diverges. -/
def iterSteps {σ : Type} (step : ℕ → σ → Option σ) : ℕ → σ → Option σ
  | 0, st => some st
  | k + 1, st => (iterSteps step k st).bind (step (k + 1))

/-- The fitness fields of a report sequence are non-increasing. -/
def repChain (l : List RReport) : Prop :=
  List.Chain' (fun a b => b.fitness ≤ a.fitness) l

/-! ## The component of the better of a learner-phase pair

`betterComp st i j s` is component `s` of whichever of `i`, `j` has the
strictly lower fitness (ties resolved to `i`, mirroring the `else` branch
of the comparison in `TLBO::learning`). -/

def betterComp (st : AState) (i j s : ℕ) : ℚ :=
  if st.fitness j < st.fitness i then st.pool j s else st.pool i s

/-! ## Concrete instances used by witnesses and counterexamples -/

/-- Constant lower bound 0. -/
def lbC : ℕ → ℚ := fun _ => 0

/-- Constant upper bound 10. -/
def ubC : ℕ → ℚ := fun _ => 10

/-- Constant upper bound 1 (tight bound used to force a DE rejection). -/
def ubOneC : ℕ → ℚ := fun _ => 1

/-- A concrete objective: fitness is the first component. -/
def fitC : (ℕ → ℚ) → ℚ := fun v => v 0

/-- Pool used for the teacher-phase mean: row 0 holds 0, all others 1. -/
def poolC3 : ℕ → ℕ → ℚ := fun j _ => if j = 0 then 0 else 1

/-- A state in which individual 1 has strictly better fitness than
individual 0 and their first components differ. -/
def stC5 : AState where
  pool := fun i _ => if i = 0 then 1 else 0
  fitness := fun i => if i = 0 then 1 else 0
  best := fun _ => 0
  best_f := 0
  tmp := fun _ => 0

/-- A state whose DE mutation value for individual 0 lands far above
`ubOneC`: row 1 holds 10, the best vector holds 5. -/
def stC9 : AState where
  pool := fun i _ => if i = 1 then 10 else 0
  fitness := fun _ => 0
  best := fun _ => 5
  best_f := 0
  tmp := fun _ => 0

/-- DE randomness: index draws 1, 2, 3, ...; start dimension 0; every
crossover coin false (stop immediately). -/
def rdC9 : DERand where
  idx := fun k => k + 1
  start := 0
  coin := fun _ => false

/-- The trial vector `DE::s1` produces from `stC9` for individual 0 with
`rdC9`: the copied row 0 with dimension 0 overwritten by the f1 value
`best[0] + f * (pool[1][0] - pool[2][0]) = 15`. -/
def tmpC9 : ℕ → ℚ :=
  Function.update (stC9.pool 0) 0
    (stC9.best 0 + 1 * (stC9.pool 1 0 - stC9.pool 2 0))

/-- TLBO randomness: teaching factor draw 0 (tf = 1), all per-dimension
factors 1, partner draw 0. -/
def tlRandC : TLBORand where
  u := 0
  rt := fun _ => 1
  jdraw := 0
  rl := fun _ => 1

/-- A concrete post-initialization state for runs on 2 individuals in
1 dimension. -/
def st0C : AState where
  pool := fun _ _ => 1
  fitness := fun _ => 1
  best := fun _ => 0
  best_f := 100
  tmp := fun _ => 0

/-- The concrete TLBO generation step on 2 individuals in 1 dimension. -/
def tlboStepC : ℕ → AState → Option AState :=
  fun _ st => some (tlboGeneration 2 1 lbC ubC fitC (fun _ => tlRandC) st)

/-- Uniform draws at the midpoint of `[lbC, ubC]`, used to initialize. -/
def rndC : ℕ → ℕ → ℚ := fun _ _ => 5

/-- DE randomness family: every individual uses index draws 1, 2, 3, ...,
start dimension 0, every crossover coin false. -/
def deRandC : ℕ → DERand := fun _ => rdC9

/-! ## Lemmas about `DE::vector` -/

theorem redraw_some (i : ℕ) (prev : List ℕ) (idx : ℕ → ℕ) :
    ∀ fuel k cur val k', redraw i prev idx fuel k cur = some (val, k') →
      val ≠ i ∧ val ∉ prev ∧ (val = cur ∨ ∃ m, val = idx m) := by
  intro fuel
  induction fuel with
  | zero =>
    intro k cur val k' h
    simp only [redraw] at h
    split at h
    · simp at h
    · rename_i hcond
      push_neg at hcond
      obtain ⟨rfl, rfl⟩ : val = cur ∧ k' = k := by
        simpa [eq_comm] using h
      exact ⟨hcond.1, hcond.2, Or.inl rfl⟩
  | succ n ih =>
    intro k cur val k' h
    simp only [redraw] at h
    split at h
    · obtain ⟨h1, h2, h3⟩ := ih (k + 1) (idx k) val k' h
      exact ⟨h1, h2, Or.inr (h3.elim (fun he => ⟨k, he⟩) id)⟩
    · rename_i hcond
      push_neg at hcond
      obtain ⟨rfl, rfl⟩ : val = cur ∧ k' = k := by
        simpa [eq_comm] using h
      exact ⟨hcond.1, hcond.2, Or.inl rfl⟩

theorem vectorAux_some (i : ℕ) (idx : ℕ → ℕ) (fuel : ℕ) :
    ∀ slots k prev v, vectorAux i idx fuel slots k prev = some v →
      prev.Nodup → i ∉ prev →
      v.Nodup ∧ i ∉ v ∧ ∀ x ∈ v, x ∈ prev ∨ ∃ m, x = idx m := by
  intro slots
  induction slots with
  | zero =>
    intro k prev v h hnd hni
    simp only [vectorAux] at h
    obtain rfl : prev = v := by simpa using h
    exact ⟨hnd, hni, fun x hx => Or.inl hx⟩
  | succ n ih =>
    intro k prev v h hnd hni
    simp only [vectorAux] at h
    cases hr : redraw i prev idx fuel k i with
    | none => rw [hr] at h; simp at h
    | some p =>
      obtain ⟨val, k'⟩ := p
      rw [hr] at h
      obtain ⟨hvi, hvp, hor⟩ := redraw_some i prev idx fuel k i val k' hr
      have hval : ∃ m, val = idx m := by
        rcases hor with rfl | hm
        · exact absurd rfl hvi
        · exact hm
      have hnd' : (prev ++ [val]).Nodup := by
        simp [List.nodup_append, hnd, hvp]
      have hni' : i ∉ prev ++ [val] := by
        simp only [List.mem_append, List.mem_singleton]
        rintro (hc | rfl)
        · exact hni hc
        · exact hvi rfl
      obtain ⟨h1, h2, h3⟩ := ih k' (prev ++ [val]) v h hnd' hni'
      refine ⟨h1, h2, fun x hx => ?_⟩
      rcases h3 x hx with hmem | hm
      · rcases List.mem_append.mp hmem with hp | hs
        · exact Or.inl hp
        · obtain rfl : x = val := by simpa using hs
          exact Or.inr hval
      · exact Or.inr hm

/-- Claim C7: whenever the auxiliary-index sampling loop of `DE::vector`
exits (under the precondition `pop_num` strictly exceeding the required
count, and with every `rand!(0, pop_num)` draw below `pop_num`), the
sampled index list has no duplicates, never contains `i`, and every entry
lies in `[0, pop_num)`. -/
theorem vector_sampling_distinct (i pop num : ℕ) (idx : ℕ → ℕ) (fuel : ℕ)
    (v : List ℕ) (hpop : num < pop) (hidx : ∀ m, idx m < pop)
    (hv : vectorFn i num idx fuel = some v) :
    v.Nodup ∧ i ∉ v ∧ ∀ x ∈ v, x < pop := by
  obtain ⟨h1, h2, h3⟩ :=
    vectorAux_some i idx fuel num 0 [] v hv List.nodup_nil (List.not_mem_nil i)
  refine ⟨h1, h2, fun x hx => ?_⟩
  rcases h3 x hx with hc | ⟨m, rfl⟩
  · exact absurd hc (List.not_mem_nil x)
  · exact hidx m

/-- Witness for C7 at a concrete sampling run: individual 0 in a
population of 4, drawing the stream 1, 2, 3, 0, 1, ... yields `[1, 2]`. -/
theorem vector_sampling_distinct_witness :
    ([1, 2] : List ℕ).Nodup ∧ (0 : ℕ) ∉ ([1, 2] : List ℕ) ∧ (1 : ℕ) < 4 := by
  obtain ⟨h1, h2, h3⟩ := vector_sampling_distinct 0 4 2 (fun k => (k + 1) % 4) 5 [1, 2]
    (by decide) (fun m => Nat.mod_lt _ (by decide)) (by decide)
  exact ⟨h1, h2, h3 1 (by decide)⟩

theorem nodup_bounded_length (pop i : ℕ) (prev : List ℕ) (hnd : prev.Nodup)
    (hmem : ∀ x ∈ prev, x < pop ∧ x ≠ i) (hi : i < pop) :
    prev.length ≤ pop - 1 := by
  have h1 : prev.toFinset.card = prev.length := List.toFinset_card_of_nodup hnd
  have h2 : prev.toFinset ⊆ (Finset.range pop).erase i := by
    intro x hx
    rw [List.mem_toFinset] at hx
    obtain ⟨hlt, hne⟩ := hmem x hx
    exact Finset.mem_erase.mpr ⟨hne, Finset.mem_range.mpr hlt⟩
  have h3 := Finset.card_le_card h2
  rwa [Finset.card_erase_of_mem (Finset.mem_range.mpr hi), Finset.card_range, h1] at h3

theorem vectorAux_none (i pop : ℕ) (idx : ℕ → ℕ) (fuel : ℕ)
    (hi : i < pop) (hidx : ∀ m, idx m < pop) :
    ∀ slots prev k, prev.Nodup → (∀ x ∈ prev, x < pop ∧ x ≠ i) →
      pop ≤ slots + prev.length →
      vectorAux i idx fuel slots k prev = none := by
  intro slots
  induction slots with
  | zero =>
    intro prev k hnd hmem hge
    exact absurd (nodup_bounded_length pop i prev hnd hmem hi) (by omega)
  | succ n ih =>
    intro prev k hnd hmem hge
    simp only [vectorAux]
    cases hr : redraw i prev idx fuel k i with
    | none => rfl
    | some p =>
      obtain ⟨val, k'⟩ := p
      obtain ⟨hvi, hvp, hor⟩ := redraw_some i prev idx fuel k i val k' hr
      have hvlt : val < pop := by
        rcases hor with rfl | ⟨m, rfl⟩
        · exact absurd rfl hvi
        · exact hidx m
      apply ih (prev ++ [val]) k'
      · simp [List.nodup_append, hnd, hvp]
      · intro x hx
        rcases List.mem_append.mp hx with hp | hs
        · exact hmem x hp
        · obtain rfl : x = val := by simpa using hs
          exact ⟨hvlt, hvi⟩
      · simp only [List.length_append, List.length_singleton]
        omega

/-- Claim C10: when `pop_num` does not strictly exceed the strategy's
required auxiliary count (`strategyNum`), the redraw loop of `DE::vector`
can never exit, whatever the random draws (each below `pop_num`, as
`rand!(0, pop_num)` guarantees) and however many iterations it is allowed:
no terminating execution exists. -/
theorem vector_sampling_no_exit (strat : DEStrategy) (i pop : ℕ) (idx : ℕ → ℕ)
    (hi : i < pop) (hidx : ∀ m, idx m < pop) (hle : pop ≤ strategyNum strat) :
    ∀ fuel, vectorFn i (strategyNum strat) idx fuel = none := by
  intro fuel
  apply vectorAux_none i pop idx fuel hi hidx (strategyNum strat) [] 0
    List.nodup_nil (by simp)
  simpa using hle

/-- Witness for C10: strategy S1 (2 auxiliary indices) on a population of
2 never exits, here run for 5 redraw iterations. -/
theorem vector_sampling_no_exit_witness :
    vectorFn 0 (strategyNum DEStrategy.S1) (fun m => m % 2) 5 = none :=
  vector_sampling_no_exit DEStrategy.S1 0 2 (fun m => m % 2) (by decide)
    (fun m => Nat.mod_lt _ (by decide)) (by decide) 5

/-! ## Claims C3, C4, C5 -/

/-- Claim C3 fails on the code: `TLBO::teaching` accumulates the population
sum of component `s` but divides it by `dim` (`mean /= self.base.dim`), not
by `pop_num`.  On a population of 2 in 1 dimension holding components 0 and
1, the code's `mean` is 1 while the population mean required by the claim
is 1/2. -/
theorem teacher_mean_divides_by_dim :
    poolMean 2 1 poolC3 0 = 1 ∧ populationMeanSpec 2 poolC3 0 = 1/2 := by
  constructor <;> norm_num [poolMean, populationMeanSpec, poolC3, List.range_succ]

/-- Claim C4 fails on the code: for strategies S2 and S7 `DE::new` sizes
the auxiliary-index array at 3 entries (indices 0, 1, 2), yet the mutation
formula `f2` reads `v[3]` — an out-of-bounds access (modelled as `none`)
on every evaluation.  The sampled list `[1, 2, 3]` below is reachable:
`DE::vector` produces it for individual 0 from the draw stream 1, 2, 3. -/
theorem f2_reads_v3_out_of_bounds :
    strategyNum DEStrategy.S2 = 3 ∧ strategyNum DEStrategy.S7 = 3 ∧
    vectorFn 0 (strategyNum DEStrategy.S2) (fun k => k + 1) 5 = some [1, 2, 3] ∧
    deFormula DEStrategy.S2 1 (fun _ _ => 0) (fun _ => 0) [1, 2, 3] (fun _ => 0) 0
      = none := by
  refine ⟨rfl, rfl, by decide, rfl⟩

/-- Counterexample to claim C5 as stated: in `stC5` individual 1 has
strictly better fitness than individual 0 and the components differ, yet
the pre-clamp learner trial `pool[0][0] + r * diff` with `r = 1` is NOT
strictly closer to the better individual's component than `pool[0][0]`
is (it lands at distance 2 instead of 1). -/
theorem learner_toward_better_counterexample :
    ¬ (|stC5.pool 0 0 + 1 * learnDiff stC5 0 1 0 - betterComp stC5 0 1 0| <
       |stC5.pool 0 0 - betterComp stC5 0 1 0|) := by
  norm_num [stC5, learnDiff, betterComp]

/-- Claim C5 amended: with `r ≥ 1` (the range of `rand!(1., dim)`) and the
two components different, the pre-clamp learner trial
`pool[i][s] + r * diff` is strictly FARTHER from the better of the pair's
component than `pool[i][s]` is — the update always moves `i` away from the
better of the pair, not toward it. -/
theorem learner_moves_away_from_better (st : AState) (i j s : ℕ) (r : ℚ)
    (hr : 1 ≤ r) (hne : st.pool i s ≠ st.pool j s) :
    |st.pool i s - betterComp st i j s| <
    |st.pool i s + r * learnDiff st i j s - betterComp st i j s| := by
  unfold learnDiff betterComp
  by_cases h : st.fitness j < st.fitness i
  · simp only [if_pos h]
    have hd : st.pool i s - st.pool j s ≠ 0 := sub_ne_zero.mpr hne
    have habs : 0 < |st.pool i s - st.pool j s| := abs_pos.mpr hd
    have hrw : st.pool i s + r * (st.pool i s - st.pool j s) - st.pool j s
        = (1 + r) * (st.pool i s - st.pool j s) := by ring
    rw [hrw, abs_mul, abs_of_pos (by linarith : (0:ℚ) < 1 + r)]
    calc |st.pool i s - st.pool j s| = 1 * |st.pool i s - st.pool j s| := (one_mul _).symm
    _ < (1 + r) * |st.pool i s - st.pool j s| :=
        mul_lt_mul_of_pos_right (by linarith) habs
  · simp only [if_neg h]
    have hd : st.pool j s - st.pool i s ≠ 0 := sub_ne_zero.mpr (Ne.symm hne)
    have habs : 0 < |st.pool j s - st.pool i s| := abs_pos.mpr hd
    have hrw : st.pool i s + r * (st.pool j s - st.pool i s) - st.pool i s
        = r * (st.pool j s - st.pool i s) := by ring
    rw [hrw, sub_self, abs_zero, abs_mul, abs_of_pos (by linarith : (0:ℚ) < r)]
    positivity

/-- Witness for the amended C5 at the concrete pair of `stC5`. -/
theorem learner_moves_away_from_better_witness :
    |stC5.pool 0 0 - betterComp stC5 0 1 0| <
    |stC5.pool 0 0 + 1 * learnDiff stC5 0 1 0 - betterComp stC5 0 1 0| :=
  learner_moves_away_from_better stC5 0 1 0 1 le_rfl (by norm_num [stC5])

/-! ## Claim C8: forced overwrites of the two crossover patterns -/

theorem s2Aux_writes_last (coin : ℕ → Bool) (formula : (ℕ → ℚ) → ℕ → Option ℚ)
    (dim : ℕ) : ∀ rem lv n tmp t w, lv + (rem + 1) = dim → n < dim →
      s2Aux coin formula dim (rem + 1) lv n tmp = some (t, w) →
      (n + rem) % dim ∈ w := by
  intro rem
  induction rem with
  | zero =>
    intro lv n tmp t w hlv hn h
    have hlveq : (lv == dim - 1) = true := by
      simp only [beq_iff_eq]; omega
    simp only [s2Aux, hlveq, Bool.or_true, if_true] at h
    cases hf : formula tmp n with
    | none => rw [hf] at h; simp at h
    | some val =>
      rw [hf] at h
      simp only [s2Aux] at h
      obtain ⟨-, rfl⟩ : t = Function.update tmp n val ∧ w = [n] := by
        simpa [eq_comm] using h
      simp [Nat.mod_eq_of_lt hn]
  | succ m ih =>
    intro lv n tmp t w hlv hn h
    have hkey : ∀ w' : List ℕ, ((n + 1) % dim + m) % dim ∈ w' →
        (n + (m + 1)) % dim ∈ w' := by
      intro w' hw'
      have : ((n + 1) % dim + m) % dim = (n + (m + 1)) % dim := by
        rw [Nat.mod_add_mod]
        congr 1
        omega
      rwa [this] at hw'
    have hn' : (n + 1) % dim < dim := Nat.mod_lt _ (by omega)
    have hlv' : (lv + 1) + (m + 1) = dim := by omega
    rw [s2Aux] at h
    split at h
    · cases hf : formula tmp n with
      | none => simp only [hf] at h; exact Option.noConfusion h
      | some val =>
        simp only [hf] at h
        cases hrec : s2Aux coin formula dim (m + 1) (lv + 1) ((n + 1) % dim)
            (Function.update tmp n val) with
        | none => simp only [hrec] at h; exact Option.noConfusion h
        | some p =>
          obtain ⟨t', w'⟩ := p
          simp only [hrec] at h
          obtain ⟨-, rfl⟩ : t = t' ∧ w = n :: w' := by simpa [eq_comm] using h
          exact List.mem_cons_of_mem n
            (hkey w' (ih (lv + 1) ((n + 1) % dim) (Function.update tmp n val) t' w'
              hlv' hn' hrec))
    · exact hkey w (ih (lv + 1) ((n + 1) % dim) tmp t w hlv' hn' h)

/-- Claim C8: Pattern A (`DE::s1`) always overwrites at least the starting
dimension, and Pattern B (`DE::s2`) always overwrites the final dimension
of its walk, `(start + dim - 1) % dim`, whatever the `maybe!(cr)` coin
outcomes (the written-dimension lists are the ghost transcripts returned
by the embeddings). -/
theorem crossover_forced_writes (dim start : ℕ) (hdim : 1 ≤ dim)
    (hstart : start < dim) :
    (∀ (coin : ℕ → Bool) (formula : (ℕ → ℚ) → ℕ → Option ℚ) (tmp t : ℕ → ℚ)
      (w : List ℕ), DEs1 coin formula dim tmp start = some (t, w) → start ∈ w) ∧
    (∀ (coin : ℕ → Bool) (formula : (ℕ → ℚ) → ℕ → Option ℚ) (tmp t : ℕ → ℚ)
      (w : List ℕ), DEs2 coin formula dim tmp start = some (t, w) →
        (start + dim - 1) % dim ∈ w) := by
  constructor
  · intro coin formula tmp t w h
    obtain ⟨d, rfl⟩ : ∃ d, dim = d + 1 := ⟨dim - 1, by omega⟩
    simp only [DEs1, s1Aux] at h
    cases hf : formula tmp start with
    | none => rw [hf] at h; simp at h
    | some val =>
      rw [hf] at h
      by_cases hc : coin 0
      · simp only [hc, if_true] at h
        cases hrec : s1Aux coin formula (d + 1) d 1 ((start + 1) % (d + 1))
            (Function.update tmp start val) with
        | none => rw [hrec] at h; simp at h
        | some p =>
          obtain ⟨t', w'⟩ := p
          rw [hrec] at h
          obtain ⟨-, rfl⟩ : t = t' ∧ w = start :: w' := by simpa [eq_comm] using h
          exact List.mem_cons_self start w'
      · simp only [hc, if_false] at h
        obtain ⟨-, rfl⟩ : t = Function.update tmp start val ∧ w = [start] := by
          simpa [eq_comm] using h
        exact List.mem_singleton_self start
  · intro coin formula tmp t w h
    obtain ⟨d, rfl⟩ : ∃ d, dim = d + 1 := ⟨dim - 1, by omega⟩
    have := s2Aux_writes_last coin formula (d + 1) d 0 start tmp t w (by omega) hstart h
    have heq : start + (d + 1) - 1 = start + d := by omega
    rwa [heq]

/-- Witness for C8 in 2 dimensions starting at dimension 1: Pattern A
writes `[1]` (coin false stops at once), Pattern B writes `[1, 0]`. -/
theorem crossover_forced_writes_witness :
    (1 : ℕ) ∈ ([1] : List ℕ) ∧ (1 + 2 - 1) % 2 ∈ ([1, 0] : List ℕ) := by
  constructor
  · exact (crossover_forced_writes 2 1 (by decide) (by decide)).1
      (fun _ => false) (fun _ _ => some 0) (fun _ => 0) _ [1] rfl
  · exact (crossover_forced_writes 2 1 (by decide) (by decide)).2
      (fun _ => false) (fun _ _ => some 0) (fun _ => 0) _ [1, 0] rfl

/-! ## Claim C9: strict reject-on-violation in `DE::generation` -/

/-- Claim C9: in a DE generation iteration, if any component of the
produced trial vector lies strictly outside its bounds, the iteration
leaves individual `i`'s pool row and fitness entirely unchanged (the state
is returned with only the scratch `tmp` field rewritten, exactly as
`continue 'a` does) and the objective function is not evaluated (ghost
flag `false`). -/
theorem de_bounds_reject_frame (dim : ℕ) (lb ub : ℕ → ℚ)
    (fit_fn : (ℕ → ℚ) → ℚ) (strat : DEStrategy) (f : ℚ) (fuel : ℕ)
    (rd : DERand) (st : AState) (i : ℕ) (v : List ℕ) (tmp : ℕ → ℚ)
    (w : List ℕ)
    (hv : vectorFn i (strategyNum strat) rd.idx fuel = some v)
    (hs : deSetter strat rd.coin (deFormula strat f st.pool st.best v) dim
      (st.pool i) rd.start = some (tmp, w))
    (hout : ∃ s, s < dim ∧ (tmp s > ub s ∨ tmp s < lb s)) :
    deIndividual dim lb ub fit_fn strat f fuel rd st i
      = some ({ st with tmp := tmp }, false) := by
  simp only [deIndividual, hv, hs]
  have hany : ((List.range dim).any
      (fun s => decide (tmp s > ub s) || decide (tmp s < lb s))) = true := by
    obtain ⟨s, hs1, hs2⟩ := hout
    refine List.any_eq_true.mpr ⟨s, List.mem_range.mpr hs1, ?_⟩
    rcases hs2 with h | h <;> simp [h]
  simp only [hany, if_true]

/-- Witness for C9: on `stC9` with strategy S1 and `rdC9`, the trial for
individual 0 is 15 against upper bound 1, so the iteration returns the
state with pool row 0 and fitness 0 untouched and the flag `false`. -/
theorem de_bounds_reject_frame_witness :
    (deIndividual 1 lbC ubOneC fitC DEStrategy.S1 1 3 rdC9 stC9 0).map
      (fun p => (p.1.pool 0 0, p.1.fitness 0, p.2))
      = some (stC9.pool 0 0, stC9.fitness 0, false) := by
  rw [de_bounds_reject_frame 1 lbC ubOneC fitC DEStrategy.S1 1 3 rdC9 stC9 0
    [1, 2] tmpC9 [0] rfl rfl
    ⟨0, by norm_num, Or.inl (by norm_num [tmpC9, stC9, ubOneC, Function.update_same])⟩]
  rfl

/-! ## Claim C1: the bounds invariant -/

theorem check_mem (lb ub : ℕ → ℚ) (s : ℕ) (v : ℚ) (h : lb s ≤ ub s) :
    lb s ≤ check lb ub s v ∧ check lb ub s v ≤ ub s := by
  unfold check
  split
  · exact ⟨h, le_rfl⟩
  · split
    · exact ⟨le_rfl, h⟩
    · rename_i h1 h2
      exact ⟨not_lt.mp h2, not_lt.mp h1⟩

theorem initRow_pool_other (dim : ℕ) (rnd : ℕ → ℕ → ℚ) (fit_fn : (ℕ → ℚ) → ℚ)
    (st : AState) (i j : ℕ) (hne : j ≠ i) :
    (initRow dim rnd fit_fn st i).pool j = st.pool j := by
  simp [initRow, Function.update_noteq hne]

theorem init_pop_foldl_not_mem (dim : ℕ) (rnd : ℕ → ℕ → ℚ)
    (fit_fn : (ℕ → ℚ) → ℚ) :
    ∀ (l : List ℕ) (st : AState) (j : ℕ), j ∉ l →
      (l.foldl (initRow dim rnd fit_fn) st).pool j = st.pool j := by
  intro l
  induction l with
  | nil => intro st j _; rfl
  | cons a t ih =>
    intro st j h
    rw [List.mem_cons, not_or] at h
    rw [List.foldl_cons, ih _ j h.2, initRow_pool_other dim rnd fit_fn st a j h.1]

theorem init_pop_foldl_mem (dim : ℕ) (rnd : ℕ → ℕ → ℚ)
    (fit_fn : (ℕ → ℚ) → ℚ) :
    ∀ (l : List ℕ) (st : AState) (i s : ℕ), i ∈ l → s < dim →
      (l.foldl (initRow dim rnd fit_fn) st).pool i s = rnd i s := by
  intro l
  induction l with
  | nil => intro st i s h _; exact absurd h (List.not_mem_nil i)
  | cons a t ih =>
    intro st i s hmem hs
    rw [List.foldl_cons]
    by_cases hit : i ∈ t
    · exact ih _ i s hit hs
    · have hia : i = a := by
        rcases List.mem_cons.mp hmem with h | h
        · exact h
        · exact absurd h hit
      subst hia
      rw [init_pop_foldl_not_mem dim rnd fit_fn t _ i hit]
      simp [initRow, Function.update_same, hs]

theorem init_pop_inBounds (pop dim : ℕ) (lb ub : ℕ → ℚ) (rnd : ℕ → ℕ → ℚ)
    (fit_fn : (ℕ → ℚ) → ℚ) (st : AState)
    (hrnd : ∀ i s, lb s ≤ rnd i s ∧ rnd i s ≤ ub s) :
    poolInBounds pop dim lb ub (init_pop pop dim rnd fit_fn st).pool := by
  intro i hi s hs
  unfold init_pop
  rw [init_pop_foldl_mem dim rnd fit_fn (List.range pop) st i s
    (List.mem_range.mpr hi) hs]
  exact hrnd i s

theorem register_pool (fit_fn : (ℕ → ℚ) → ℚ) (st : AState) (i : ℕ) :
    (register fit_fn st i).pool
      = if fit_fn st.tmp < st.fitness i then Function.update st.pool i st.tmp
        else st.pool := by
  unfold register set_best
  by_cases h1 : fit_fn st.tmp < st.fitness i
  · simp only [if_pos h1]
    split <;> rfl
  · simp only [if_neg h1]
    split <;> rfl

theorem register_pool_inBounds (pop dim : ℕ) (lb ub : ℕ → ℚ)
    (fit_fn : (ℕ → ℚ) → ℚ) (st : AState) (i : ℕ)
    (htmp : ∀ s, s < dim → lb s ≤ st.tmp s ∧ st.tmp s ≤ ub s)
    (hst : poolInBounds pop dim lb ub st.pool) :
    poolInBounds pop dim lb ub (register fit_fn st i).pool := by
  rw [register_pool]
  split
  · intro a ha s hs
    by_cases hai : a = i
    · subst hai
      rw [Function.update_same]
      exact htmp s hs
    · rw [Function.update_noteq hai]
      exact hst a ha s hs
  · exact hst

theorem teaching_pool_inBounds (pop dim : ℕ) (lb ub : ℕ → ℚ)
    (fit_fn : (ℕ → ℚ) → ℚ) (rd : TLBORand) (st : AState) (i : ℕ)
    (hlu : ∀ s, s < dim → lb s ≤ ub s)
    (hst : poolInBounds pop dim lb ub st.pool) :
    poolInBounds pop dim lb ub (teaching pop dim lb ub fit_fn rd st i).pool := by
  unfold teaching
  apply register_pool_inBounds
  · intro s hs
    simp only [hs, if_pos]
    exact check_mem lb ub s _ (hlu s hs)
  · exact hst

theorem learning_pool_inBounds (pop dim : ℕ) (lb ub : ℕ → ℚ)
    (fit_fn : (ℕ → ℚ) → ℚ) (rd : TLBORand) (st : AState) (i : ℕ)
    (hlu : ∀ s, s < dim → lb s ≤ ub s)
    (hst : poolInBounds pop dim lb ub st.pool) :
    poolInBounds pop dim lb ub (learning pop dim lb ub fit_fn rd st i).pool := by
  unfold learning
  apply register_pool_inBounds
  · intro s hs
    simp only [hs, if_pos]
    exact check_mem lb ub s _ (hlu s hs)
  · exact hst

theorem foldl_preserve {β : Type} (P : β → Prop) (body : β → ℕ → β)
    (hbody : ∀ st i, P st → P (body st i)) :
    ∀ (l : List ℕ) (st : β), P st → P (l.foldl body st) := by
  intro l
  induction l with
  | nil => intro st h; exact h
  | cons a t ih => intro st h; exact ih _ (hbody st a h)

theorem tlboGeneration_pool_inBounds (pop dim : ℕ) (lb ub : ℕ → ℚ)
    (fit_fn : (ℕ → ℚ) → ℚ) (rand : ℕ → TLBORand) (st : AState)
    (hlu : ∀ s, s < dim → lb s ≤ ub s)
    (hst : poolInBounds pop dim lb ub st.pool) :
    poolInBounds pop dim lb ub (tlboGeneration pop dim lb ub fit_fn rand st).pool := by
  unfold tlboGeneration
  refine foldl_preserve (fun st => poolInBounds pop dim lb ub st.pool) _
    (fun st i h => ?_) (List.range pop) st hst
  exact learning_pool_inBounds pop dim lb ub fit_fn (rand i) _ i hlu
    (teaching_pool_inBounds pop dim lb ub fit_fn (rand i) st i hlu h)

theorem deIndividual_pool_inBounds (pop dim : ℕ) (lb ub : ℕ → ℚ)
    (fit_fn : (ℕ → ℚ) → ℚ) (strat : DEStrategy) (f : ℚ) (fuel : ℕ)
    (rd : DERand) (st : AState) (i : ℕ) (st' : AState) (b : Bool)
    (h : deIndividual dim lb ub fit_fn strat f fuel rd st i = some (st', b))
    (hst : poolInBounds pop dim lb ub st.pool) :
    poolInBounds pop dim lb ub st'.pool := by
  simp only [deIndividual] at h
  cases hv : vectorFn i (strategyNum strat) rd.idx fuel with
  | none => simp only [hv] at h; exact Option.noConfusion h
  | some v =>
    simp only [hv] at h
    cases hs : deSetter strat rd.coin (deFormula strat f st.pool st.best v) dim
        (st.pool i) rd.start with
    | none => simp only [hs] at h; exact Option.noConfusion h
    | some p =>
      obtain ⟨tmp, w⟩ := p
      simp only [hs] at h
      by_cases hany : ((List.range dim).any
          (fun s => decide (tmp s > ub s) || decide (tmp s < lb s))) = true
      · rw [if_pos hany] at h
        obtain ⟨rfl, -⟩ : ({ st with tmp := tmp }, false) = (st', b) := by
          simpa using h
        exact hst
      · rw [if_neg hany] at h
        have hbnd : ∀ s, s < dim → lb s ≤ tmp s ∧ tmp s ≤ ub s := by
          simp only [List.any_eq_true, List.mem_range, Bool.or_eq_true,
            decide_eq_true_eq, not_exists, not_and, not_or] at hany
          intro s hsd
          obtain ⟨h1, h2⟩ := hany s hsd
          exact ⟨not_lt.mp h2, not_lt.mp h1⟩
        split at h
        · obtain ⟨rfl, -⟩ :
              (({ st with pool := Function.update st.pool i tmp,
                          fitness := Function.update st.fitness i (fit_fn tmp),
                          tmp := tmp } : AState), true) = (st', b) := by
            simpa using h
          intro a ha s hsd
          dsimp only
          by_cases hai : a = i
          · subst hai
            rw [Function.update_same]
            exact hbnd s hsd
          · rw [Function.update_noteq hai]
            exact hst a ha s hsd
        · obtain ⟨rfl, -⟩ : ({ st with tmp := tmp }, true) = (st', b) := by
            simpa using h
          exact hst

theorem deGenerationAux_pool_inBounds (pop dim : ℕ) (lb ub : ℕ → ℚ)
    (fit_fn : (ℕ → ℚ) → ℚ) (strat : DEStrategy) (f : ℚ) (fuel : ℕ)
    (rand : ℕ → DERand) :
    ∀ (l : List ℕ) (st st' : AState),
      deGenerationAux dim lb ub fit_fn strat f fuel rand l st = some st' →
      poolInBounds pop dim lb ub st.pool → poolInBounds pop dim lb ub st'.pool := by
  intro l
  induction l with
  | nil =>
    intro st st' h hst
    obtain rfl : st = st' := by simpa [deGenerationAux] using h
    exact hst
  | cons a t ih =>
    intro st st' h hst
    simp only [deGenerationAux] at h
    cases hd : deIndividual dim lb ub fit_fn strat f fuel (rand a) st a with
    | none => simp only [hd] at h; exact Option.noConfusion h
    | some p =>
      obtain ⟨mid, b⟩ := p
      simp only [hd] at h
      exact ih mid st' h
        (deIndividual_pool_inBounds pop dim lb ub fit_fn strat f fuel (rand a)
          st a mid b hd hst)

theorem find_best_pool (pop : ℕ) (st : AState) :
    (find_best pop st).pool = st.pool := by
  unfold find_best set_best
  split <;> rfl

theorem deGeneration_pool_inBounds (pop dim : ℕ) (lb ub : ℕ → ℚ)
    (fit_fn : (ℕ → ℚ) → ℚ) (strat : DEStrategy) (f : ℚ) (fuel : ℕ)
    (rand : ℕ → DERand) (st st' : AState)
    (h : deGeneration pop dim lb ub fit_fn strat f fuel rand st = some st')
    (hst : poolInBounds pop dim lb ub st.pool) :
    poolInBounds pop dim lb ub st'.pool := by
  unfold deGeneration at h
  cases ha : deGenerationAux dim lb ub fit_fn strat f fuel rand (List.range pop) st with
  | none => rw [ha] at h; exact Option.noConfusion h
  | some mid =>
    rw [ha] at h
    obtain rfl : find_best pop mid = st' := by simpa using h
    rw [find_best_pool]
    exact deGenerationAux_pool_inBounds pop dim lb ub fit_fn strat f fuel rand
      (List.range pop) st mid ha hst

theorem iterSteps_preserve {σ : Type} (P : σ → Prop) (step : ℕ → σ → Option σ)
    (hstep : ∀ g st st', step g st = some st' → P st → P st') :
    ∀ (k : ℕ) (st st' : σ), iterSteps step k st = some st' → P st → P st' := by
  intro k
  induction k with
  | zero =>
    intro st st' h hP
    obtain rfl : st = st' := by simpa [iterSteps] using h
    exact hP
  | succ n ih =>
    intro st st' h hP
    simp only [iterSteps] at h
    cases hm : iterSteps step n st with
    | none => rw [hm] at h; exact Option.noConfusion h
    | some mid =>
      rw [hm] at h
      simp only [Option.some_bind] at h
      exact hstep (n + 1) mid st' h (ih st mid hm hP)

/-- Claim C1: with consistent bounds (`lb s ≤ ub s`) and initialization
draws inside their requested ranges, the pool satisfies the bounds
invariant right after `init_pop`, and it still satisfies it after every
number `k` of TLBO generations and after every number `k` of DE
generations, whatever random draws each generation consumes: TLBO passes
every proposed component through `check`, and DE discards any trial with a
component outside its bounds before it can be written into the pool. -/
theorem bounds_invariant (pop dim : ℕ) (lb ub : ℕ → ℚ) (rnd : ℕ → ℕ → ℚ)
    (fitg : ℕ → (ℕ → ℚ) → ℚ) (tlrand : ℕ → ℕ → TLBORand)
    (strat : DEStrategy) (f : ℚ) (defuel : ℕ) (derand : ℕ → ℕ → DERand)
    (stInit : AState)
    (hlu : ∀ s, s < dim → lb s ≤ ub s)
    (hrnd : ∀ i s, lb s ≤ rnd i s ∧ rnd i s ≤ ub s) :
    poolInBounds pop dim lb ub (init_pop pop dim rnd (fitg 0) stInit).pool ∧
    (∀ k st', iterSteps
        (fun g st => some (tlboGeneration pop dim lb ub (fitg g) (tlrand g) st)) k
        (init_pop pop dim rnd (fitg 0) stInit) = some st' →
      poolInBounds pop dim lb ub st'.pool) ∧
    (∀ k st', iterSteps
        (fun g st => deGeneration pop dim lb ub (fitg g) strat f defuel (derand g) st) k
        (init_pop pop dim rnd (fitg 0) stInit) = some st' →
      poolInBounds pop dim lb ub st'.pool) := by
  have h0 : poolInBounds pop dim lb ub (init_pop pop dim rnd (fitg 0) stInit).pool :=
    init_pop_inBounds pop dim lb ub rnd (fitg 0) stInit hrnd
  refine ⟨h0, fun k st' h => ?_, fun k st' h => ?_⟩
  · exact iterSteps_preserve (fun st => poolInBounds pop dim lb ub st.pool) _
      (fun g st st' hg hP => by
        obtain rfl : tlboGeneration pop dim lb ub (fitg g) (tlrand g) st = st' := by
          simpa using hg
        exact tlboGeneration_pool_inBounds pop dim lb ub (fitg g) (tlrand g) st hlu hP)
      k _ st' h h0
  · exact iterSteps_preserve (fun st => poolInBounds pop dim lb ub st.pool) _
      (fun g st st' hg hP =>
        deGeneration_pool_inBounds pop dim lb ub (fitg g) strat f defuel
          (derand g) st st' hg hP)
      k _ st' h h0

/-- Witness for C1 on a concrete 2-individual, 1-dimension problem:
the invariant holds after initialization, after one TLBO generation, and
at the start (zero DE generations) of a DE run. -/
theorem bounds_invariant_witness :
    poolInBounds 2 1 lbC ubC (init_pop 2 1 rndC fitC st0C).pool ∧
    poolInBounds 2 1 lbC ubC
      (tlboGeneration 2 1 lbC ubC fitC (fun _ => tlRandC)
        (init_pop 2 1 rndC fitC st0C)).pool := by
  have H := bounds_invariant 2 1 lbC ubC rndC (fun _ => fitC) (fun _ _ => tlRandC)
    DEStrategy.S1 1 3 (fun _ _ => rdC9) st0C
    (fun s _ => by norm_num [lbC, ubC])
    (fun i s => ⟨by norm_num [lbC, rndC], by norm_num [rndC, ubC]⟩)
  exact ⟨H.1, H.2.1 1
    (tlboGeneration 2 1 lbC ubC fitC (fun _ => tlRandC)
      (init_pop 2 1 rndC fitC st0C)) rfl⟩

/-! ## Claim C2: monotone non-increase of the global best fitness -/

theorem register_best_f_le (fit_fn : (ℕ → ℚ) → ℚ) (st : AState) (i : ℕ) :
    (register fit_fn st i).best_f ≤ st.best_f := by
  unfold register set_best
  by_cases h1 : fit_fn st.tmp < st.fitness i
  · simp only [if_pos h1]
    split
    · rename_i h2
      dsimp only at h2 ⊢
      rw [Function.update_same]
      exact le_of_lt h2
    · exact le_rfl
  · simp only [if_neg h1]
    split
    · rename_i h2
      exact le_of_lt (lt_of_le_of_lt (not_lt.mp h1) h2)
    · exact le_rfl

theorem teaching_best_f_le (pop dim : ℕ) (lb ub : ℕ → ℚ)
    (fit_fn : (ℕ → ℚ) → ℚ) (rd : TLBORand) (st : AState) (i : ℕ) :
    (teaching pop dim lb ub fit_fn rd st i).best_f ≤ st.best_f :=
  register_best_f_le fit_fn _ i

theorem learning_best_f_le (pop dim : ℕ) (lb ub : ℕ → ℚ)
    (fit_fn : (ℕ → ℚ) → ℚ) (rd : TLBORand) (st : AState) (i : ℕ) :
    (learning pop dim lb ub fit_fn rd st i).best_f ≤ st.best_f :=
  register_best_f_le fit_fn _ i

theorem tlboGeneration_best_f_le (pop dim : ℕ) (lb ub : ℕ → ℚ)
    (fit_fn : (ℕ → ℚ) → ℚ) (rand : ℕ → TLBORand) (st : AState) :
    (tlboGeneration pop dim lb ub fit_fn rand st).best_f ≤ st.best_f := by
  unfold tlboGeneration
  refine foldl_preserve (fun x => x.best_f ≤ st.best_f) _
    (fun x i hx => le_trans ?_ hx) (List.range pop) st le_rfl
  exact le_trans
    (learning_best_f_le pop dim lb ub fit_fn (rand i) _ i)
    (teaching_best_f_le pop dim lb ub fit_fn (rand i) x i)

theorem deIndividual_best_f (dim : ℕ) (lb ub : ℕ → ℚ)
    (fit_fn : (ℕ → ℚ) → ℚ) (strat : DEStrategy) (f : ℚ) (fuel : ℕ)
    (rd : DERand) (st : AState) (i : ℕ) (st' : AState) (b : Bool)
    (h : deIndividual dim lb ub fit_fn strat f fuel rd st i = some (st', b)) :
    st'.best_f = st.best_f := by
  simp only [deIndividual] at h
  cases hv : vectorFn i (strategyNum strat) rd.idx fuel with
  | none => simp only [hv] at h; exact Option.noConfusion h
  | some v =>
    simp only [hv] at h
    cases hs : deSetter strat rd.coin (deFormula strat f st.pool st.best v) dim
        (st.pool i) rd.start with
    | none => simp only [hs] at h; exact Option.noConfusion h
    | some p =>
      obtain ⟨tmp, w⟩ := p
      simp only [hs] at h
      split at h
      · obtain ⟨rfl, -⟩ : ({ st with tmp := tmp }, false) = (st', b) := by
          simpa using h
        rfl
      · split at h
        · obtain ⟨rfl, -⟩ :
              (({ st with pool := Function.update st.pool i tmp,
                          fitness := Function.update st.fitness i (fit_fn tmp),
                          tmp := tmp } : AState), true) = (st', b) := by
            simpa using h
          rfl
        · obtain ⟨rfl, -⟩ : ({ st with tmp := tmp }, true) = (st', b) := by
            simpa using h
          rfl

theorem deGenerationAux_best_f (dim : ℕ) (lb ub : ℕ → ℚ)
    (fit_fn : (ℕ → ℚ) → ℚ) (strat : DEStrategy) (f : ℚ) (fuel : ℕ)
    (rand : ℕ → DERand) :
    ∀ (l : List ℕ) (st st' : AState),
      deGenerationAux dim lb ub fit_fn strat f fuel rand l st = some st' →
      st'.best_f = st.best_f := by
  intro l
  induction l with
  | nil =>
    intro st st' h
    obtain rfl : st = st' := by simpa [deGenerationAux] using h
    rfl
  | cons a t ih =>
    intro st st' h
    simp only [deGenerationAux] at h
    cases hd : deIndividual dim lb ub fit_fn strat f fuel (rand a) st a with
    | none => simp only [hd] at h; exact Option.noConfusion h
    | some p =>
      obtain ⟨mid, b⟩ := p
      simp only [hd] at h
      rw [ih mid st' h]
      exact deIndividual_best_f dim lb ub fit_fn strat f fuel (rand a) st a mid b hd

theorem find_best_best_f_le (pop : ℕ) (st : AState) :
    (find_best pop st).best_f ≤ st.best_f := by
  unfold find_best set_best
  split
  · rename_i h
    exact le_of_lt h
  · exact le_rfl

theorem deGeneration_best_f_le (pop dim : ℕ) (lb ub : ℕ → ℚ)
    (fit_fn : (ℕ → ℚ) → ℚ) (strat : DEStrategy) (f : ℚ) (fuel : ℕ)
    (rand : ℕ → DERand) (st st' : AState)
    (h : deGeneration pop dim lb ub fit_fn strat f fuel rand st = some st') :
    st'.best_f ≤ st.best_f := by
  unfold deGeneration at h
  cases ha : deGenerationAux dim lb ub fit_fn strat f fuel rand (List.range pop) st with
  | none => rw [ha] at h; exact Option.noConfusion h
  | some mid =>
    rw [ha] at h
    obtain rfl : find_best pop mid = st' := by simpa using h
    calc (find_best pop mid).best_f ≤ mid.best_f := find_best_best_f_le pop mid
    _ = st.best_f := deGenerationAux_best_f dim lb ub fit_fn strat f fuel rand
        (List.range pop) st mid ha

theorem repChain_append : ∀ (l : List RReport) (x : RReport), repChain l →
    (∀ r ∈ l, x.fitness ≤ r.fitness) → repChain (l ++ [x]) := by
  intro l
  induction l with
  | nil => intro x _ _; simp [repChain]
  | cons a t ih =>
    intro x hl hx
    cases t with
    | nil =>
      simp only [List.cons_append, List.nil_append]
      exact List.chain'_cons.mpr ⟨hx a (List.mem_cons_self a []), List.chain'_singleton x⟩
    | cons b t' =>
      rw [List.cons_append]
      refine List.chain'_cons.mpr ⟨(List.chain'_cons.mp hl).1, ?_⟩
      exact ih x (List.chain'_cons.mp hl).2
        (fun r hr => hx r (List.mem_cons_of_mem a hr))

theorem runLoop_chain {σ : Type} (step : ℕ → σ → Option σ) (bestF : σ → ℚ)
    (task : RTask) (rpt : ℕ)
    (hstep : ∀ g st st', step g st = some st' → bestF st' ≤ bestF st) :
    ∀ (fuel g : ℕ) (st : σ) (ld : ℚ) (reps : List RReport) (stF : σ) (gF : ℕ)
      (repsF : List RReport),
      runLoop step bestF task rpt fuel g st ld reps = some (stF, gF, repsF) →
      repChain reps → (∀ r ∈ reps, bestF st ≤ r.fitness) →
      repChain repsF ∧ ∀ r ∈ repsF, bestF stF ≤ r.fitness := by
  intro fuel
  induction fuel with
  | zero =>
    intro g st ld reps stF gF repsF h _ _
    exact Option.noConfusion h
  | succ n ih =>
    intro g st ld reps stF gF repsF h hc ha
    simp only [runLoop] at h
    cases hst : step (g + 1) st with
    | none => simp only [hst] at h; exact Option.noConfusion h
    | some st' =>
      simp only [hst] at h
      have hb : bestF st' ≤ bestF st := hstep (g + 1) st st' hst
      have hc' : repChain (if (g + 1) % rpt = 0
          then reps ++ [⟨g + 1, bestF st'⟩] else reps) := by
        split
        · exact repChain_append reps _ hc (fun r hr => le_trans hb (ha r hr))
        · exact hc
      have ha' : ∀ r ∈ (if (g + 1) % rpt = 0
          then reps ++ [⟨g + 1, bestF st'⟩] else reps), bestF st' ≤ r.fitness := by
        split
        · intro r hr
          rcases List.mem_append.mp hr with hr' | hr'
          · exact le_trans hb (ha r hr')
          · obtain rfl : r = ⟨g + 1, bestF st'⟩ := by simpa using hr'
            exact le_rfl
        · exact fun r hr => le_trans hb (ha r hr)
      cases task with
      | MaxGen v =>
        dsimp only at h
        split at h
        · rw [Option.some_inj, Prod.mk.injEq, Prod.mk.injEq] at h
          obtain ⟨rfl, rfl, rfl⟩ := h
          exact ⟨hc', ha'⟩
        · exact ih (g + 1) st' ld _ stF gF repsF h hc' ha'
      | MinFit v =>
        dsimp only at h
        split at h
        · rw [Option.some_inj, Prod.mk.injEq, Prod.mk.injEq] at h
          obtain ⟨rfl, rfl, rfl⟩ := h
          exact ⟨hc', ha'⟩
        · exact ih (g + 1) st' ld _ stF gF repsF h hc' ha'
      | MaxTime oracle =>
        dsimp only at h
        split at h
        · rw [Option.some_inj, Prod.mk.injEq, Prod.mk.injEq] at h
          obtain ⟨rfl, rfl, rfl⟩ := h
          exact ⟨hc', ha'⟩
        · exact ih (g + 1) st' ld _ stF gF repsF h hc' ha'
      | SlowDown v =>
        dsimp only at h
        split at h
        · rw [Option.some_inj, Prod.mk.injEq, Prod.mk.injEq] at h
          obtain ⟨rfl, rfl, rfl⟩ := h
          exact ⟨hc', ha'⟩
        · exact ih (g + 1) st' _ _ stF gF repsF h hc' ha'

theorem runAlg_chain {σ : Type} (step : ℕ → σ → Option σ) (bestF : σ → ℚ)
    (task : RTask) (rpt fuel : ℕ) (st0 : σ)
    (hstep : ∀ g st st', step g st = some st' → bestF st' ≤ bestF st) :
    repChain (runAlgReports step bestF task rpt fuel st0) := by
  unfold runAlgReports runAlg
  cases hr : runLoop step bestF task rpt fuel 0 st0 0 [⟨0, bestF st0⟩] with
  | none => simp [repChain]
  | some p =>
    obtain ⟨stF, gF, repsF⟩ := p
    obtain ⟨h1, h2⟩ := runLoop_chain step bestF task rpt hstep fuel 0 st0 0
      [⟨0, bestF st0⟩] stF gF repsF hr (List.chain'_singleton _)
      (fun r hr' => by
        obtain rfl : r = ⟨0, bestF st0⟩ := by simpa using hr'
        exact le_rfl)
    simpa using repChain_append repsF ⟨gF, bestF stF⟩ h1 h2

/-- Claim C2: for every DE run and every TLBO run (any termination policy,
report cadence, initial state and random draws), the fitness fields of the
successive Reports form a non-increasing sequence: `find_best` and
`register` reassign `best_f` only to strictly smaller values. -/
theorem best_fitness_monotone (pop dim : ℕ) (lb ub : ℕ → ℚ)
    (fitg : ℕ → (ℕ → ℚ) → ℚ) (strat : DEStrategy) (f : ℚ) (defuel : ℕ)
    (derand : ℕ → ℕ → DERand) (tlrand : ℕ → ℕ → TLBORand)
    (task : RTask) (rpt fuel : ℕ) (st0 : AState) :
    repChain (runAlgReports
      (fun g st => deGeneration pop dim lb ub (fitg g) strat f defuel (derand g) st)
      AState.best_f task rpt fuel st0) ∧
    repChain (runAlgReports
      (fun g st => some (tlboGeneration pop dim lb ub (fitg g) (tlrand g) st))
      AState.best_f task rpt fuel st0) := by
  constructor
  · exact runAlg_chain _ _ task rpt fuel st0
      (fun g st st' h =>
        deGeneration_best_f_le pop dim lb ub (fitg g) strat f defuel (derand g) st st' h)
  · refine runAlg_chain _ _ task rpt fuel st0 (fun g st st' h => ?_)
    obtain rfl : tlboGeneration pop dim lb ub (fitg g) (tlrand g) st = st' := by
      simpa using h
    exact tlboGeneration_best_f_le pop dim lb ub (fitg g) (tlrand g) st

/-! ## Claim C6: reports of a MaxGen(5), rpt = 1 run -/

/-- Counterexample to claim C6 as stated: a concrete TLBO run with
`MaxGen(5)` and `rpt = 1` does NOT append exactly 6 reports, and its
report sequence repeats a generation (the terminal generation 5 is
reported twice: once by the periodic report, once by the final report
appended after the loop). -/
theorem maxgen5_reports_counterexample :
    (runAlgReports tlboStepC AState.best_f (RTask.MaxGen 5) 1 10 st0C).length ≠ 6 ∧
    ¬ ((runAlgReports tlboStepC AState.best_f (RTask.MaxGen 5) 1 10 st0C).map
        RReport.gen).Nodup := by
  constructor <;> decide

/-- Claim C6 amended: a run with `MaxGen(5)` and `rpt = 1` (any algorithm
step that never panics, given enough loop fuel) appends exactly 7 reports,
for generations 0, 1, 2, 3, 4, 5, 5: the initial report, one periodic
report per generation 1-5, and the final report, which repeats the
terminal generation 5. -/
theorem maxgen5_seven_reports {σ : Type} (step : ℕ → σ → Option σ)
    (bestF : σ → ℚ) (st0 : σ) (fuel : ℕ)
    (htot : ∀ g st, step g st ≠ none) (hfuel : 5 ≤ fuel) :
    (runAlgReports step bestF (RTask.MaxGen 5) 1 fuel st0).map RReport.gen
      = [0, 1, 2, 3, 4, 5, 5] := by
  obtain ⟨k, rfl⟩ : ∃ k, fuel = k + 5 := ⟨fuel - 5, by omega⟩
  obtain ⟨st1, h1⟩ : ∃ x, step 1 st0 = some x :=
    Option.ne_none_iff_exists'.mp (htot 1 st0)
  obtain ⟨st2, h2⟩ : ∃ x, step 2 st1 = some x :=
    Option.ne_none_iff_exists'.mp (htot 2 st1)
  obtain ⟨st3, h3⟩ : ∃ x, step 3 st2 = some x :=
    Option.ne_none_iff_exists'.mp (htot 3 st2)
  obtain ⟨st4, h4⟩ : ∃ x, step 4 st3 = some x :=
    Option.ne_none_iff_exists'.mp (htot 4 st3)
  obtain ⟨st5, h5⟩ : ∃ x, step 5 st4 = some x :=
    Option.ne_none_iff_exists'.mp (htot 5 st4)
  have hloop : runLoop step bestF (RTask.MaxGen 5) 1 (k + 5) 0 st0 0
      [⟨0, bestF st0⟩] = some (st5, 5,
        [⟨0, bestF st0⟩, ⟨1, bestF st1⟩, ⟨2, bestF st2⟩, ⟨3, bestF st3⟩,
         ⟨4, bestF st4⟩, ⟨5, bestF st5⟩]) := by
    simp [runLoop, h1, h2, h3, h4, h5]
  unfold runAlgReports runAlg
  rw [hloop]
  rfl

/-- Witness for the amended C6: the concrete TLBO run of the
counterexample yields the report generations 0, 1, 2, 3, 4, 5, 5. -/
theorem maxgen5_seven_reports_witness :
    (runAlgReports tlboStepC AState.best_f (RTask.MaxGen 5) 1 10 st0C).map
      RReport.gen = [0, 1, 2, 3, 4, 5, 5] :=
  maxgen5_seven_reports tlboStepC AState.best_f st0C 10
    (fun g st => by simp [tlboStepC]) (by norm_num)
